import Mathlib

/-
  Verification development for the hoarder_processor telemetry pipeline.

  Python dictionaries (JSON-like payloads) are modelled by the inductive type
  J below; a dict is a list of key/value pairs with unique keys (Python dicts
  cannot hold duplicate keys) and insertion order.  Python set iteration order
  is unspecified; wherever the source iterates over a set union of key sets we
  determinize to first-occurrence order (pyDedup).  All claims below are
  stated through key lookups or through full results on concrete inputs, so
  this determinization does not affect any verdict.
-/

/-- A JSON-like value: the shallow embedding of the Python values the
pipeline manipulates.  Numbers are modelled by rationals, which subsume the
int/float values appearing in payloads. -/
inductive J where
  | null : J
  | bool (b : Bool) : J
  | num (q : Rat) : J
  | str (s : String) : J
  | arr (elems : List J) : J
  | obj (fields : List (String × J)) : J

/-- A Python dict: association list of string keys to values. -/
abbrev JObj := List (String × J)

mutual

/-- Structural equality of values, modelling the Python equality operator as
it is used by the pipeline (the pipeline only ever compares a dict with a
non-dict, or two scalars, so order-sensitivity on dict/dict comparison is
irrelevant to every claim). -/
def jEq : J → J → Bool
  | J.null, J.null => true
  | J.bool a, J.bool b => a == b
  | J.num a, J.num b => a == b
  | J.str a, J.str b => a == b
  | J.arr a, J.arr b => jEqList a b
  | J.obj a, J.obj b => jEqObj a b
  | _, _ => false

/-- Elementwise equality of value lists. -/
def jEqList : List J → List J → Bool
  | [], [] => true
  | x :: xs, y :: ys => jEq x y && jEqList xs ys
  | _, _ => false

/-- Pairwise equality of dict entry lists. -/
def jEqObj : JObj → JObj → Bool
  | [], [] => true
  | (k1, v1) :: xs, (k2, v2) :: ys => k1 == k2 && jEq v1 v2 && jEqObj xs ys
  | _, _ => false

end

/-- Python dict lookup (d.get(key)); first binding wins. -/
def lookupJ : JObj → String → Option J
  | [], _ => none
  | (k, v) :: rest, key => if k = key then some v else lookupJ rest key

/-- Python membership test (key in d). -/
def containsKeyJ (m : JObj) (k : String) : Bool :=
  (lookupJ m k).isSome

/-- The list of keys of a dict, in insertion order. -/
def keysOf (m : JObj) : List String :=
  m.map Prod.fst

/-- Deduplication keeping first occurrences: our determinization of the
iteration order of a Python set built from a list of keys. -/
def pyDedup : List String → List String
  | [] => []
  | k :: rest => k :: pyDedup (rest.filter (fun x => x ≠ k))
termination_by l => l.length
decreasing_by
  simp only [List.length_cons]
  exact Nat.lt_succ_of_le (List.length_filter_le _ _)

/-- A freshness leaf: the dict holding a value together with the timestamp at
which it last changed, as built by update_freshness_from_full_state in
app/utils.py. -/
def mkLeaf (v : J) (ts : String) : J :=
  J.obj [("value", v), ("ts", J.str ts)]

/-- Python truthiness of a value (bool(x)). -/
def pyTruthy : J → Bool
  | J.null => false
  | J.bool b => b
  | J.num q => q != 0
  | J.str s => s != ""
  | J.arr l => !l.isEmpty
  | J.obj m => !m.isEmpty

/-- Python truthiness of an optional value; a missing value (None) is falsy. -/
def pyTruthyOpt : Option J → Bool
  | none => false
  | some j => pyTruthy j

/-- Whether a value is a Python dict (isinstance(x, dict)). -/
def jIsDict : J → Bool
  | J.obj _ => true
  | _ => false

mutual

/-- Processing of one key of the loop body of update_freshness_from_full_state
(app/utils.py lines 102-120): the contribution of this key to the output dict.
Keys absent from new_full_simple are skipped (the continue on line 107). -/
def updEntry (base new : JObj) (ts : String) (k : String) : JObj :=
  if containsKeyJ new k = false then []
  else
    match h : lookupJ new k with
    | some (J.obj m) =>
        let baseSub : JObj :=
          match lookupJ base k with
          | some (J.obj bm) => if containsKeyJ bm "value" then [] else bm
          | _ => []
        let sub := updGo baseSub m ts (pyDedup (keysOf baseSub ++ keysOf m))
        if sub.isEmpty then [] else [(k, J.obj sub)]
    | some v =>
        let baseNode := lookupJ base k
        let oldValue : J :=
          match baseNode with
          | some (J.obj bm) => (lookupJ bm "value").getD J.null
          | _ => J.null
        if pyTruthyOpt baseNode = false ∨ jEq oldValue v = false then
          [(k, mkLeaf v ts)]
        else [(k, baseNode.getD J.null)]
    | none => []
termination_by (sizeOf new, 0)
decreasing_by
  have hlk : ∀ (mm : JObj) (kk : String) (vv : J),
      lookupJ mm kk = some vv → sizeOf vv < sizeOf mm := by
    intro mm
    induction mm with
    | nil => intro kk vv hv; simp [lookupJ] at hv
    | cons p restm ih =>
        intro kk vv hv
        rw [show lookupJ (p :: restm) kk
              = if p.1 = kk then some p.2 else lookupJ restm kk from rfl] at hv
        by_cases hp : p.1 = kk
        · rw [if_pos hp] at hv
          have hv2 : p.2 = vv := by
            cases hv; rfl
          subst hv2
          cases p with
          | mk a b =>
              have h0 : ((a, b) : String × J).2 = b := rfl
              rw [h0]
              have h1 : sizeOf ((a, b) :: restm)
                  = 1 + (1 + sizeOf a + sizeOf b) + sizeOf restm := by
                simp
              omega
        · rw [if_neg hp] at hv
          have h3 := ih kk vv hv
          have h2 : sizeOf restm < sizeOf (p :: restm) := by
            simp only [List.cons.sizeOf_spec]
            omega
          omega
  have hm := hlk new k (J.obj m) h
  have hlt : sizeOf m < sizeOf new := by
    have : sizeOf (J.obj m) = 1 + sizeOf m := by simp
    omega
  exact Prod.Lex.left _ _ hlt

/-- The loop of update_freshness_from_full_state over the union of the key
sets, determinized; each key contributes updEntry. -/
def updGo (base new : JObj) (ts : String) : List String → JObj
  | [] => []
  | k :: rest => updEntry base new ts k ++ updGo base new ts rest
termination_by ks => (sizeOf new, ks.length + 1)
decreasing_by
  · exact Prod.Lex.right _ (by simp)
  · exact Prod.Lex.right _ (by simp)

end

/-- Shallow embedding of update_freshness_from_full_state (app/utils.py
lines 98-122).  The source iterates over the union of the key sets of the
base freshness tree and of the new plain state; we determinize that set
iteration to first-occurrence order of base keys then new keys. -/
def update_freshness_from_full_state (base new : JObj) (ts : String) : JObj :=
  updGo base new ts (pyDedup (keysOf base ++ keysOf new))

/-- Shallow embedding of reconstruct_from_freshness (app/utils.py lines
74-87): a dict node holding both a value and a ts key is a leaf and is
replaced by its value; other dict nodes are recursed into; non-dict values
are passed through. -/
def reconstruct_from_freshness : JObj → JObj
  | [] => []
  | (k, J.obj m) :: rest =>
      (k, if containsKeyJ m "value" && containsKeyJ m "ts"
          then (lookupJ m "value").getD J.null
          else J.obj (reconstruct_from_freshness m))
        :: reconstruct_from_freshness rest
  | (k, v) :: rest => (k, v) :: reconstruct_from_freshness rest
termination_by m => sizeOf m
decreasing_by
  · simp only [List.cons.sizeOf_spec, Prod.mk.sizeOf_spec, J.obj.sizeOf_spec]
    omega
  · simp only [List.cons.sizeOf_spec, Prod.mk.sizeOf_spec]
    omega
  · simp only [List.cons.sizeOf_spec, Prod.mk.sizeOf_spec]
    omega

mutual

/-- Processing of one key of the loop body of diff_states (app/utils.py
lines 229-245): the contribution of this key to the delta dict. -/
def diffEntry (new old : JObj) (k : String) : JObj :=
  if containsKeyJ old k = false then
    match lookupJ new k with
    | some J.null => []
    | some v => [(k, v)]
    | none => []
  else if containsKeyJ new k = false then [(k, J.null)]
  else
    match h : lookupJ new k, lookupJ old k with
    | some J.null, some ov => if jEq ov J.null then [] else [(k, J.null)]
    | some (J.obj nm), some (J.obj om) =>
        let sub := diffGo nm om (pyDedup (keysOf nm ++ keysOf om))
        if sub.isEmpty then [] else [(k, J.obj sub)]
    | some nv, some ov => if jEq nv ov then [] else [(k, nv)]
    | _, _ => []
termination_by (sizeOf new, 0)
decreasing_by
  have hlk : ∀ (mm : JObj) (kk : String) (vv : J),
      lookupJ mm kk = some vv → sizeOf vv < sizeOf mm := by
    intro mm
    induction mm with
    | nil => intro kk vv hv; simp [lookupJ] at hv
    | cons p restm ih =>
        intro kk vv hv
        rw [show lookupJ (p :: restm) kk
              = if p.1 = kk then some p.2 else lookupJ restm kk from rfl] at hv
        by_cases hp : p.1 = kk
        · rw [if_pos hp] at hv
          have hv2 : p.2 = vv := by
            cases hv; rfl
          subst hv2
          cases p with
          | mk a b =>
              have h0 : ((a, b) : String × J).2 = b := rfl
              rw [h0]
              have h1 : sizeOf ((a, b) :: restm)
                  = 1 + (1 + sizeOf a + sizeOf b) + sizeOf restm := by
                simp
              omega
        · rw [if_neg hp] at hv
          have h3 := ih kk vv hv
          have h2 : sizeOf restm < sizeOf (p :: restm) := by
            simp only [List.cons.sizeOf_spec]
            omega
          omega
  have hm := hlk new k (J.obj nm) h
  have hlt : sizeOf nm < sizeOf new := by
    have : sizeOf (J.obj nm) = 1 + sizeOf nm := by simp
    omega
  exact Prod.Lex.left _ _ hlt

/-- The loop of diff_states over the union of the key sets, determinized;
each key contributes diffEntry. -/
def diffGo (new old : JObj) : List String → JObj
  | [] => []
  | k :: rest => diffEntry new old k ++ diffGo new old rest
termination_by ks => (sizeOf new, ks.length + 1)
decreasing_by
  · exact Prod.Lex.right _ (by simp)
  · exact Prod.Lex.right _ (by simp)

end

/-- Shallow embedding of diff_states (app/utils.py lines 225-246).  The
source iterates over set(new_state) | set(old_state); we determinize that
set iteration to first-occurrence order of new keys then old keys. -/
def diff_states (new old : JObj) : JObj :=
  diffGo new old (pyDedup (keysOf new ++ keysOf old))

mutual

/-- Shallow embedding of cleanup_empty (app/utils.py lines 195-202) on a
single value. -/
def cleanupEmpty : J → J
  | J.obj m => J.obj (cleanupObjFields m)
  | J.arr l => J.arr (cleanupArrElems l)
  | x => x

/-- cleanup_empty on the entries of a dict: entries whose cleaned value is an
empty string, empty list or empty dict are dropped (None values are kept). -/
def cleanupObjFields : JObj → JObj
  | [] => []
  | (k, v) :: rest =>
      (if jEq (cleanupEmpty v) (J.str "") || jEq (cleanupEmpty v) (J.arr [])
          || jEq (cleanupEmpty v) (J.obj []) then []
       else [(k, cleanupEmpty v)]) ++ cleanupObjFields rest

/-- cleanup_empty on the elements of a list: cleaned elements that are None,
an empty string, an empty list or an empty dict are dropped. -/
def cleanupArrElems : List J → List J
  | [] => []
  | v :: rest =>
      (if jEq (cleanupEmpty v) J.null || jEq (cleanupEmpty v) (J.str "")
          || jEq (cleanupEmpty v) (J.arr []) || jEq (cleanupEmpty v) (J.obj []) then []
       else [cleanupEmpty v]) ++ cleanupArrElems rest

end

/-- The KEY_ORDERS table of app/routes/data_access.py (lines 22-48): fixed
key order per section for stable rendered output; unknown levels have no
fixed order (KEY_ORDERS.get(level_key, [])). -/
def keyOrders : String → List String
  | "data" => ["identity", "location", "power", "device_state", "sensors",
      "network", "environment", "app_settings", "diagnostics"]
  | "identity" => ["device_name", "device_id"]
  | "location" => ["latitude", "longitude", "altitude_in_meters",
      "elevation_in_meters", "accuracy_in_meters", "speed_in_kmh",
      "geohash_precision_in_meters", "location_actual_timezone"]
  | "power" => ["battery_percent", "capacity_in_mah",
      "calculated_leftover_capacity_in_mah", "charging_state", "power_save_mode"]
  | "device_state" => ["screen_on", "vpn_active", "network_metered",
      "data_activity", "system_audio_state", "camera_active", "flashlight_on",
      "phone_activity_state"]
  | "sensors" => ["device_temperature_celsius", "device_ambient_light_level",
      "device_ambient_light_lux_range", "device_barometer_hpa",
      "device_steps_since_boot", "device_proximity_sensor_closer_than_5cm"]
  | "network" => ["currently_used_active_network", "source_ip", "wifi",
      "bandwidth", "cellular"]
  | "wifi" => ["ssid", "bssid", "frequency_channel", "frequency_band",
      "rssi_dbm", "link_speed_quality_index", "link_speed_mbps_range", "standard"]
  | "bandwidth" => ["download_in_mbps", "upload_in_mbps"]
  | "cellular" => ["type", "operator", "signal", "mcc", "mnc", "cell_id",
      "tac", "timing_advance"]
  | "signal" => ["strength", "quality"]
  | "strength" => ["metric", "value_dbm", "unit"]
  | "quality" => ["metric", "value", "unit"]
  | "environment" => ["weather", "precipitation", "wind", "marine", "solar",
      "air_quality"]
  | "weather" => ["temperature_in_celsius", "feels_like_in_celsius",
      "wind_chill_in_celsius", "description", "assessment", "humidity_percent",
      "pressure_in_hpa", "cloud_cover_percent"]
  | "precipitation" => ["type", "intensity", "summary"]
  | "wind" => ["speed_in_meters_per_second", "gusts_in_meters_per_second",
      "direction", "description"]
  | "solar" => ["sunrise", "sunset"]
  | "air_quality" => ["us_aqi", "assessment", "pm2_5", "carbon_monoxide",
      "nitrogen_dioxide", "sulphur_dioxide", "ozone"]
  | "diagnostics" => ["timestamps", "weather", "ingest_request_id",
      "ingest_request_info", "ingest_warnings", "data_freshness"]
  | "app_settings" => ["general", "power_management", "batching_and_upload",
      "precision_controls", "diagnostics_toggles", "system_status"]
  | "power_management" => ["power_modes", "battery_optimization_state"]
  | "batching_and_upload" => ["batching_enabled", "compression_level",
      "triggers", "trigger_values"]
  | "diagnostics_toggles" => ["master_switch", "general_state", "sensor_state",
      "wifi_details"]
  | "system_status" => ["permissions", "sensor_health", "calibration"]
  | _ => []

/-- Insertion of a string into a sorted list of strings. -/
def insertSorted (s : String) : List String → List String
  | [] => [s]
  | x :: rest => if s ≤ x then s :: x :: rest else x :: insertSorted s rest

/-- Insertion sort on strings, modelling the sorted(...) call of
_apply_custom_sorting for the keys outside the fixed order. -/
def sortStrings : List String → List String
  | [] => []
  | x :: rest => insertSorted x (sortStrings rest)

mutual

/-- Shallow embedding of _apply_custom_sorting (app/routes/data_access.py
lines 63-78): dicts are rebuilt with the keys of keyOrders for the current
level first (recursing with the key as the new level), followed by the
remaining keys in sorted order; lists are mapped elementwise. -/
def applyCustomSorting : J → String → J
  | J.obj m, level =>
      J.obj (sortFields m (keyOrders level)
        ++ sortFields m (sortStrings
              ((keysOf m).filter (fun k => !((keyOrders level).contains k)))))
  | J.arr l, level => J.arr (applyCustomSortingList l level)
  | x, _ => x
termination_by j _ => (sizeOf j, 0)
decreasing_by
  · have hlt : sizeOf m < sizeOf (J.obj m) := by
      simp only [J.obj.sizeOf_spec]
      omega
    exact Prod.Lex.left _ _ hlt
  · have hlt : sizeOf m < sizeOf (J.obj m) := by
      simp only [J.obj.sizeOf_spec]
      omega
    exact Prod.Lex.left _ _ hlt
  · have hlt : sizeOf l < sizeOf (J.arr l) := by
      simp only [J.arr.sizeOf_spec]
      omega
    exact Prod.Lex.left _ _ hlt

/-- The per-key loop of _apply_custom_sorting: keys present in the dict are
emitted in the given order, each child sorted with its key as level. -/
def sortFields (m : JObj) : List String → JObj
  | [] => []
  | k :: rest =>
      (match h : lookupJ m k with
       | some v => [(k, applyCustomSorting v k)]
       | none => []) ++ sortFields m rest
termination_by ks => (sizeOf m, ks.length + 1)
decreasing_by
  · have hlk : ∀ (mm : JObj) (kk : String) (vv : J),
        lookupJ mm kk = some vv → sizeOf vv < sizeOf mm := by
      intro mm
      induction mm with
      | nil => intro kk vv hv; simp [lookupJ] at hv
      | cons p restm ih =>
          intro kk vv hv
          rw [show lookupJ (p :: restm) kk
                = if p.1 = kk then some p.2 else lookupJ restm kk from rfl] at hv
          by_cases hp : p.1 = kk
          · rw [if_pos hp] at hv
            have hv2 : p.2 = vv := by
              cases hv; rfl
            subst hv2
            cases p with
            | mk a b =>
                have h0 : ((a, b) : String × J).2 = b := rfl
                rw [h0]
                have h1 : sizeOf ((a, b) :: restm)
                    = 1 + (1 + sizeOf a + sizeOf b) + sizeOf restm := by
                  simp
                omega
          · rw [if_neg hp] at hv
            have h3 := ih kk vv hv
            have h2 : sizeOf restm < sizeOf (p :: restm) := by
              simp only [List.cons.sizeOf_spec]
              omega
            omega
    exact Prod.Lex.left _ _ (hlk m k v h)
  · exact Prod.Lex.right _ (by simp)

/-- _apply_custom_sorting mapped over the elements of a list. -/
def applyCustomSortingList : List J → String → List J
  | [], _ => []
  | v :: rest, level =>
      applyCustomSorting v level :: applyCustomSortingList rest level
termination_by l _ => (sizeOf l, 1)
decreasing_by
  · have hlt : sizeOf v < sizeOf (v :: rest) := by
      simp only [List.cons.sizeOf_spec]
      omega
    exact Prod.Lex.left _ _ hlt
  · have hlt : sizeOf rest < sizeOf (v :: rest) := by
      simp only [List.cons.sizeOf_spec]
      omega
    exact Prod.Lex.left _ _ hlt

end

/-- Python dict.pop(k, None): remove the binding of k if present. -/
def removeKey (d : JObj) (k : String) : JObj :=
  d.filter (fun p => p.1 != k)

/-- Python dict item assignment d[k] = v: replace the binding in place when
the key exists, otherwise append it. -/
def setKey (d : JObj) (k : String) (v : J) : JObj :=
  if containsKeyJ d k then d.map (fun p => if p.1 = k then (k, v) else p)
  else d ++ [(k, v)]

/-- Python dict.update(upd): existing keys are overwritten in place, new keys
are appended in the order of upd. -/
def dictUpdate (d upd : JObj) : JObj :=
  d.map (fun p => (p.1, (lookupJ upd p.1).getD p.2))
    ++ upd.filter (fun q => !(containsKeyJ d q.1))

/-- The solar clean-up of get_device_history (app/routes/data_access.py lines
174-176): when the changes dict holds a truthy environment.solar subtree, the
keys sunrise_utc and sunset_utc are popped from it.  When the stored solar
value is a truthy non-dict the endpoint would raise on the pop; the claims
below never touch that corner, and this embedding leaves such a value
unchanged. -/
def popSolarUtc (changes : JObj) : JObj :=
  match lookupJ changes "environment" with
  | some (J.obj env) =>
      match lookupJ env "solar" with
      | some (J.obj sol) =>
          if (sol.isEmpty : Bool) then changes
          else
            setKey changes "environment" (J.obj (setKey env "solar"
              (J.obj (removeKey (removeKey sol "sunrise_utc") "sunset_utc"))))
      | _ => changes
  | _ => changes

/-- The post-processing applied to each changes dict by get_device_history
(app/routes/data_access.py lines 174-190): solar utc keys popped, the
diagnostics subtree popped, empty values pruned, and the custom key order
applied from the top data level. -/
def postProcessChanges (changes : JObj) : JObj :=
  match applyCustomSorting
      (cleanupEmpty (J.obj (removeKey (popSolarUtc changes) "diagnostics")))
      "data" with
  | J.obj r => r
  | _ => []

/-- The delta loop of get_device_history (app/routes/data_access.py lines
167-192) over the fetched payload list: the first limit payloads each yield a
changes dict, diffed against the immediately following fetched payload when
one exists and it is truthy (the fetch itself returns up to limit + 1 rows),
otherwise carrying the full payload. -/
def historyDeltasGo : Nat → List JObj → List JObj
  | 0, _ => []
  | _, [] => []
  | Nat.succ n, cur :: rest =>
      (postProcessChanges (match rest.head? with
        | some prev => if (prev.isEmpty : Bool) then cur else diff_states cur prev
        | none => cur))
        :: historyDeltasGo n rest

/-- The changes fields of one history page: payloads is the list of fetched
rows (newest first, up to limit + 1 of them), limit the page size. -/
def historyDeltas (payloads : List JObj) (limit : Nat) : List JObj :=
  historyDeltasGo limit payloads

/-- Numeric value of a list of decimal digit characters. -/
def digitsToNat (cs : List Char) : Nat :=
  cs.foldl (fun acc c => acc * 10 + (c.toNat - 48)) 0

/-- Whether every character of the list is a decimal digit. -/
def allDigits (cs : List Char) : Bool :=
  cs.all Char.isDigit

/-- Parsing of a plain decimal string, modelling the float(...) conversions
applied by get_weather_enrichment to the string-decimal wire coordinates.
Python float also accepts surrounding whitespace, exponents and inf/nan;
the pipeline feeds it plain decimals, which is the subset modelled here. -/
def parseDecimal (s : String) : Option Rat :=
  let cs := s.data
  let neg : Bool := match cs with
    | c :: _ => c == '-'
    | [] => false
  let cs2 := match cs with
    | c :: rest => if c = '-' ∨ c = '+' then rest else cs
    | [] => []
  let intPart := cs2.takeWhile (fun c => c ≠ '.')
  let rest2 := cs2.dropWhile (fun c => c ≠ '.')
  match rest2 with
  | [] =>
      if intPart.isEmpty || !allDigits intPart then none
      else some ((if neg then -1 else 1) * (digitsToNat intPart : Rat))
  | _ :: frac =>
      if frac.any (fun c => c = '.') then none
      else if !allDigits intPart || !allDigits frac then none
      else if intPart.isEmpty && frac.isEmpty then none
      else some ((if neg then -1 else 1) *
        ((digitsToNat intPart : Rat)
          + (digitsToNat frac : Rat) / (10 : Rat) ^ frac.length))

/-- Python float(x) on a JSON value: numbers pass through, booleans become
0 or 1, decimal strings are parsed, anything else raises (modelled none). -/
def pyFloat : J → Option Rat
  | J.num q => some q
  | J.bool b => some (if b then 1 else 0)
  | J.str s => parseDecimal s
  | _ => none

/-- MOVEMENT_THRESHOLD_KM of app/weather.py. -/
def MOVEMENT_THRESHOLD_KM : Rat := 1

/-- WEATHER_EXPIRATION_SECONDS of app/weather.py. -/
def WEATHER_EXPIRATION_SECONDS : Rat := 3600

/-- WEATHER_COOLDOWN_SECONDS of app/weather.py. -/
def WEATHER_COOLDOWN_SECONDS : Rat := 60

/-- The device position cache entry (redis hash device:position:id): cached
coordinates and the timestamp of the last successful weather update, in
seconds.  A cache entry whose last_weather_update is missing, empty or
unparseable behaves identically to an absent one in the gate below (both the
falsy check on line 88 of app/weather.py and the except branch on line 102
return True), so both are modelled by none. -/
structure DevicePosition where
  lat : Rat
  lon : Rat
  lastWeatherUpdate : Option Rat

/-- Shallow embedding of _should_force_weather_update (app/weather.py lines
86-104).  Time arithmetic on datetimes is modelled by rational seconds, and
distKm stands for the value of calculate_distance_km between the current
coordinates and the cached position: the haversine itself is transcendental
floating-point arithmetic, and every claim about this gate concerns only the
comparison of that value with the 1 km threshold. -/
def shouldForceWeatherUpdate (pos : Option DevicePosition) (now distKm : Rat) : Bool :=
  match pos with
  | none => true
  | some p =>
      match p.lastWeatherUpdate with
      | none => true
      | some lu =>
          if now - lu < WEATHER_COOLDOWN_SECONDS then false
          else if now - lu > WEATHER_EXPIRATION_SECONDS then true
          else if distKm > MOVEMENT_THRESHOLD_KM then true
          else false

/-- The environment of one get_weather_enrichment call: the device position
cache entry, the current time, the distance between the record coordinates
and the cached position, and the outcome of get_coordinated_weather_data
(app/weather.py lines 72-84: cached weather, or a provider fetch when the
quota allows, or nothing when the cache misses and the quota is exhausted or
both providers fail). -/
structure WeatherEnv where
  pos : Option DevicePosition
  now : Rat
  distKm : Rat
  fetchedWeather : Option JObj
  fetchedTs : Option String

/-- Shallow embedding of get_weather_enrichment (app/weather.py lines
106-129).  Returns the enriched record together with the device position
cache entry after the call (save_device_position writes lat, lon and
last_weather_update = now only on a successful fetch). -/
def getWeatherEnrichment (env : WeatherEnv) (data : JObj) : JObj × Option DevicePosition :=
  let latV := lookupJ data "y"
  let lonV := lookupJ data "x"
  if !pyTruthyOpt latV || !pyTruthyOpt lonV then (data, env.pos)
  else
    match pyFloat (latV.getD J.null), pyFloat (lonV.getD J.null) with
    | some lat, some lon =>
        if shouldForceWeatherUpdate env.pos env.now env.distKm then
          match env.fetchedWeather with
          | some w =>
              let d1 := dictUpdate data w
              let d2 := setKey d1 "weather_fetch_lat" (J.num lat)
              let d3 := setKey d2 "weather_fetch_lon" (J.num lon)
              let d4 := match env.fetchedTs with
                | some ts => if ts = "" then d3 else setKey d3 "weather_fetch_ts" (J.str ts)
                | none => d3
              (d4, some { lat := lat, lon := lon, lastWeatherUpdate := some env.now })
          | none => (data, env.pos)
        else (data, env.pos)
    | _, _ => (data, env.pos)

/-- Python round(x, 1) on a real value.  Python rounds ties to even while
round here rounds ties up; the two differ only at exact ties, and no claim
concerns the rounded digits. -/
noncomputable def pyRound1 (x : Real) : Real :=
  (round (x * 10) : Int) / 10

open Classical in
/-- Shallow embedding of calculate_wind_chill (app/transforms.py lines
145-158), with float arithmetic modelled over the reals; the 0.16 power is
the real power. -/
noncomputable def calculate_wind_chill (temp_c wind_speed_ms : Option Real) : Option Real :=
  match temp_c, wind_speed_ms with
  | some t, some w =>
      if t > 10 ∨ w < 1.34 then none
      else
        let windSpeedKmh := w * 3.6
        let windChill := 13.12 + 0.6215 * t - 11.37 * windSpeedKmh ^ (0.16 : Real)
          + 0.3965 * t * windSpeedKmh ^ (0.16 : Real)
        if windChill > t then none else some (pyRound1 windChill)
  | _, _ => none

/-- One record of an ingest batch as seen by _process_and_store_statefully
(app/tasks.py): the original ingest id, the optional absolute ts and relative
to timing keys of the payload (a key that is absent and a key whose value is
null behave identically in the branch conditions on lines 71-85 and are both
modelled by none), the parsed received_at fallback (absent and unparseable
both lead to a skip that preserves the batch base and are both modelled by
none), and the serialized byte size of the record. -/
structure IngestRec where
  ingestId : Option Int
  tsField : Option Int
  toField : Option Int
  receivedAt : Option Int
  sizeBytes : Int

/-- Rendering of an epoch-second event timestamp into the stored string form;
the source renders datetime.isoformat with second precision, modelled here by
an injective rendering. -/
def renderTs (e : Int) : String :=
  toString e

/-- The timestamp reconstruction branch of app/tasks.py lines 71-85 for one
record: given the device batch-base cache, yields the reconstructed event
timestamp and the batch-base cache after the record, or none when the record
is skipped. -/
def stepTs (baseTs : Option Int) (r : IngestRec) : Option (Int × Option Int) :=
  match r.tsField with
  | some t => some (t, some t)
  | none =>
      match r.toField, baseTs with
      | some o, some b => some (b + o, some b)
      | _, _ =>
          match r.receivedAt with
          | some ra => some (ra, none)
          | none => none

/-- One buffered save-record of records_to_save (app/tasks.py lines
108-115). -/
structure SaveRow where
  ingestId : Option Int
  deviceId : String
  historicalPayload : JObj
  latestPayload : JObj
  eventTs : String
  sizeBytes : Int

/-- The per-device record loop of _process_and_store_statefully (app/tasks.py
lines 67-117).  The transform argument stands for the composition of ip
intelligence, weather enrichment and transform_payload applied to the record
and the reconstructed prior plain state: outside calls whose outputs feed
the freshness merge.  The state threaded through the loop is the in-memory
freshness payload and the batch-base cache; the stored last_updated_ts is
never part of that state because line 65 of the source discards it. -/
def deviceLoopAux (transform : IngestRec → JObj → JObj) (deviceId : String) :
    Option JObj → Option Int → List IngestRec → List SaveRow
  | _, _, [] => []
  | curFresh, baseTs, r :: rest =>
      match stepTs baseTs r with
      | none => deviceLoopAux transform deviceId curFresh baseTs rest
      | some (e, baseTs2) =>
          let ts := renderTs e
          let simpleBase : JObj :=
            match curFresh with
            | some f => if (f.isEmpty : Bool) then [] else reconstruct_from_freshness f
            | none => []
          let newSimple := transform r simpleBase
          let newFresh := update_freshness_from_full_state (curFresh.getD []) newSimple ts
          { ingestId := r.ingestId, deviceId := deviceId,
            historicalPayload := newSimple, latestPayload := newFresh,
            eventTs := ts, sizeBytes := r.sizeBytes }
            :: deviceLoopAux transform deviceId (some newFresh) baseTs2 rest

/-- The per-device processing of one batch: stored is the pair returned by
get_latest_state_for_device (app/database.py lines 186-195), of which the
worker destructures only the freshness payload and discards the
last_updated_ts (the underscore on line 65 of app/tasks.py); baseTs0 is the
devices batch-base cache at batch start. -/
def deviceLoop (transform : IngestRec → JObj → JObj) (deviceId : String)
    (stored : Option JObj × Option String) (baseTs0 : Option Int)
    (recs : List IngestRec) : List SaveRow :=
  deviceLoopAux transform deviceId stored.1 baseTs0 recs

/-- The number of records of a batch whose event timestamp is reconstructible
(those that are not skipped), threading the batch-base cache as the loop
does. -/
def countProcessed : Option Int → List IngestRec → Nat
  | _, [] => 0
  | baseTs, r :: rest =>
      match stepTs baseTs r with
      | none => countProcessed baseTs rest
      | some (_, b2) => 1 + countProcessed b2 rest

/-- A fixed transform used by concrete evaluations of the worker loop: every
record produces the same one-field plain state. -/
def transformConst : IngestRec → JObj → JObj :=
  fun _ _ => [("p", J.num 42)]

/-- One row of the enriched_telemetry table (app/database.py schema): the
autoincrement id is modelled by list position. -/
structure EventRow where
  ingestId : Int
  deviceId : String
  payload : JObj
  eventTs : String
  sizeBytes : Int

/-- The two tables written by save_stateful_data: the append-only event log
and the latest projection keyed by device (device_id is the primary key, so
the device keys of latest are unique). -/
structure Db where
  events : List EventRow
  latest : List (String × JObj × String)

/-- INSERT OR IGNORE INTO enriched_telemetry for one buffered record
(app/database.py lines 226-229): a row whose original_ingest_id already
exists is dropped silently, and a null original_ingest_id violates NOT NULL
so OR IGNORE drops that row too. -/
def insertEventOrIgnore (events : List EventRow) (r : SaveRow) : List EventRow :=
  match r.ingestId with
  | none => events
  | some iid =>
      if events.any (fun e => e.ingestId == iid) then events
      else
        events ++ [{ ingestId := iid
                     deviceId := r.deviceId
                     payload := r.historicalPayload
                     eventTs := r.eventTs
                     sizeBytes := r.sizeBytes }]

/-- Lookup of the latest projection row of a device. -/
def lookupLatest : List (String × JObj × String) → String → Option (JObj × String)
  | [], _ => none
  | (d, p, t) :: rest, dev =>
      if d = dev then some (p, t) else lookupLatest rest dev

/-- The conditional upsert of the latest projection for one buffered record
(app/database.py lines 230-238): insert when the device has no row, replace
the row only when the incoming last_updated_ts is strictly greater in the
text order used by sqlite (the stored timestamps share one fixed-width
format, for which text order is chronological order). -/
def upsertLatest : List (String × JObj × String) → SaveRow → List (String × JObj × String)
  | [], r => [(r.deviceId, r.latestPayload, r.eventTs)]
  | (d, p, t) :: rest, r =>
      if d = r.deviceId then
        if t < r.eventTs then (d, r.latestPayload, r.eventTs) :: rest
        else (d, p, t) :: rest
      else (d, p, t) :: upsertLatest rest r

/-- Shallow embedding of save_stateful_data (app/database.py lines 197-243):
one transaction inserting every event row with OR IGNORE and then applying
the conditional upsert of the latest projection for every record, in batch
order. -/
def saveStatefulData (db : Db) (records : List SaveRow) : Db :=
  { events := records.foldl insertEventOrIgnore db.events,
    latest := records.foldl upsertLatest db.latest }

/-- Reflexivity of the embedded Python equality. -/
theorem jEq_refl : ∀ v : J, jEq v v = true := by
  suffices H : ∀ n, ∀ v : J, sizeOf v ≤ n → jEq v v = true by
    intro v; exact H (sizeOf v) v le_rfl
  intro n
  induction n with
  | zero =>
      intro v hv
      cases v <;> simp at hv
  | succ n ih =>
      intro v hv
      cases v with
      | null => simp [jEq]
      | bool b => simp [jEq]
      | num q => simp [jEq]
      | str s => simp [jEq]
      | arr l =>
          have hl : sizeOf l ≤ n := by
            simp only [J.arr.sizeOf_spec] at hv; omega
          simp only [jEq]
          clear hv
          induction l with
          | nil => simp [jEqList]
          | cons x xs ihl =>
              have hx : sizeOf x ≤ n := by
                simp only [List.cons.sizeOf_spec] at hl; omega
              have hxs : sizeOf xs ≤ n := by
                simp only [List.cons.sizeOf_spec] at hl; omega
              simp only [jEqList, Bool.and_eq_true]
              exact ⟨ih x hx, ihl hxs⟩
      | obj m =>
          have hm : sizeOf m ≤ n := by
            simp only [J.obj.sizeOf_spec] at hv; omega
          simp only [jEq]
          clear hv
          induction m with
          | nil => simp [jEqObj]
          | cons p ps ihm =>
              obtain ⟨k, v⟩ := p
              have hx : sizeOf v ≤ n := by
                simp only [List.cons.sizeOf_spec, Prod.mk.sizeOf_spec] at hm; omega
              have hxs : sizeOf ps ≤ n := by
                simp only [List.cons.sizeOf_spec] at hm; omega
              simp only [jEqObj, Bool.and_eq_true]
              exact ⟨⟨by simp, ih v hx⟩, ihm hxs⟩

/-- Lookup distributes over append when the key is found on the left. -/
theorem lookupJ_append_some {l1 : JObj} {k : String} {v : J} (l2 : JObj)
    (h : lookupJ l1 k = some v) : lookupJ (l1 ++ l2) k = some v := by
  induction l1 with
  | nil => simp [lookupJ] at h
  | cons p rest ih =>
      obtain ⟨pk, pv⟩ := p
      by_cases hp : pk = k
      · simp [lookupJ, hp] at h ⊢
        exact h
      · simp [lookupJ, hp] at h ⊢
        exact ih h

/-- Lookup distributes over append when the key is absent on the left. -/
theorem lookupJ_append_none {l1 : JObj} {k : String} (l2 : JObj)
    (h : lookupJ l1 k = none) : lookupJ (l1 ++ l2) k = lookupJ l2 k := by
  induction l1 with
  | nil => simp [lookupJ]
  | cons p rest ih =>
      obtain ⟨pk, pv⟩ := p
      by_cases hp : pk = k
      · simp [lookupJ, hp] at h
      · simp [lookupJ, hp] at h ⊢
        exact ih h

/-- A dict none of whose entries carry the key has no binding for it. -/
theorem lookupJ_eq_none_of_keys {l : JObj} {k : String}
    (h : ∀ p ∈ l, p.1 ≠ k) : lookupJ l k = none := by
  induction l with
  | nil => simp [lookupJ]
  | cons p rest ih =>
      obtain ⟨pk, pv⟩ := p
      have hpk : pk ≠ k := h (pk, pv) (by simp)
      simp [lookupJ, hpk]
      exact ih (fun q hq => h q (by simp [hq]))

/-- A found key is among the keys of the dict. -/
theorem lookupJ_mem_keys {m : JObj} {k : String} {v : J}
    (h : lookupJ m k = some v) : k ∈ keysOf m := by
  induction m with
  | nil => simp [lookupJ] at h
  | cons p rest ih =>
      obtain ⟨pk, pv⟩ := p
      by_cases hp : pk = k
      · simp [keysOf, hp]
      · simp [lookupJ, hp] at h
        simp [keysOf]
        right
        have := ih h
        simpa [keysOf] using this

/-- Membership is preserved by the set-iteration determinization. -/
theorem mem_pyDedup : ∀ (l : List String) (k : String), k ∈ pyDedup l ↔ k ∈ l := by
  suffices H : ∀ n (l : List String), l.length ≤ n → ∀ k, (k ∈ pyDedup l ↔ k ∈ l) by
    intro l k; exact H l.length l le_rfl k
  intro n
  induction n with
  | zero =>
      intro l hl k
      have : l = [] := List.length_eq_zero.mp (Nat.le_zero.mp hl)
      subst this
      simp [pyDedup]
  | succ n ih =>
      intro l hl k
      cases l with
      | nil => simp [pyDedup]
      | cons x rest =>
          rw [show pyDedup (x :: rest)
                = x :: pyDedup (rest.filter (fun y => y ≠ x)) from by
              simp [pyDedup]]
          have hlen : (rest.filter (fun y => y ≠ x)).length ≤ n := by
            have h1 := List.length_filter_le (fun y => y ≠ x) rest
            simp only [List.length_cons] at hl
            omega
          constructor
          · intro hk
            rcases List.mem_cons.mp hk with h | h
            · simp [h]
            · have := (ih _ hlen k).mp h
              have := List.mem_filter.mp this
              simp [List.mem_cons, this.1]
          · intro hk
            rcases List.mem_cons.mp hk with h | h
            · simp [h]
            · by_cases hx : k = x
              · simp [hx]
              · refine List.mem_cons.mpr (Or.inr ?_)
                refine (ih _ hlen k).mpr ?_
                exact List.mem_filter.mpr ⟨h, by simpa using hx⟩

/-- The set-iteration determinization yields distinct keys. -/
theorem pyDedup_nodup : ∀ l : List String, (pyDedup l).Nodup := by
  suffices H : ∀ n (l : List String), l.length ≤ n → (pyDedup l).Nodup by
    intro l; exact H l.length l le_rfl
  intro n
  induction n with
  | zero =>
      intro l hl
      have : l = [] := List.length_eq_zero.mp (Nat.le_zero.mp hl)
      subst this
      simp [pyDedup]
  | succ n ih =>
      intro l hl
      cases l with
      | nil => simp [pyDedup]
      | cons x rest =>
          rw [show pyDedup (x :: rest)
                = x :: pyDedup (rest.filter (fun y => y ≠ x)) from by
              simp [pyDedup]]
          have hlen : (rest.filter (fun y => y ≠ x)).length ≤ n := by
            have h1 := List.length_filter_le (fun y => y ≠ x) rest
            simp only [List.length_cons] at hl
            omega
          refine List.nodup_cons.mpr ⟨?_, ih _ hlen⟩
          intro hx
          have := (mem_pyDedup _ _).mp hx
          have := List.mem_filter.mp this
          simp at this

/-- On a list of distinct keys the determinization is the identity. -/
theorem pyDedup_eq_self {l : List String} (h : l.Nodup) : pyDedup l = l := by
  induction l with
  | nil => simp [pyDedup]
  | cons x rest ih =>
      rw [show pyDedup (x :: rest)
            = x :: pyDedup (rest.filter (fun y => y ≠ x)) from by
          simp [pyDedup]]
      rcases List.nodup_cons.mp h with ⟨hx, hrest⟩
      have hfilter : rest.filter (fun y => y ≠ x) = rest := by
        refine List.filter_eq_self.mpr ?_
        intro y hy
        have : y ≠ x := fun hyx => hx (hyx ▸ hy)
        simpa using this
      rw [hfilter, ih hrest]

/-- The embedded Python equality equates null only with null. -/
theorem jEq_null_iff (v : J) : jEq J.null v = true ↔ v = J.null := by
  cases v <;> simp [jEq]

/-- Every entry contributed by one key of the update loop carries that key,
and only keys of the new plain state contribute entries. -/
theorem updEntry_mem {base new : JObj} {ts k : String} {p : String × J}
    (hp : p ∈ updEntry base new ts k) :
    p.1 = k ∧ containsKeyJ new k = true := by
  rw [updEntry] at hp
  split at hp
  · simp at hp
  · rename_i hc
    have hc2 : containsKeyJ new k = true := by
      revert hc
      cases containsKeyJ new k <;> simp
    refine ⟨?_, hc2⟩
    split at hp
    · simp at hp
      rw [hp.2]
    · simp at hp
      split at hp
      · simp at hp
        rw [hp]
      · simp at hp
        rw [hp]
    · simp at hp

/-- Every entry of the update loop output carries a key of the iterated key
list that is present in the new plain state. -/
theorem updGo_keys {base new : JObj} {ts : String} :
    ∀ (ks : List String) (p : String × J), p ∈ updGo base new ts ks →
      ∃ k2, k2 ∈ ks ∧ p.1 = k2 ∧ containsKeyJ new k2 = true := by
  intro ks
  induction ks with
  | nil =>
      intro p hp
      simp [updGo] at hp
  | cons k0 rest ih =>
      intro p hp
      rw [show updGo base new ts (k0 :: rest)
            = updEntry base new ts k0 ++ updGo base new ts rest from by
          simp [updGo]] at hp
      rcases List.mem_append.mp hp with h | h
      · obtain ⟨h1, h2⟩ := updEntry_mem h
        exact ⟨k0, by simp, h1, h2⟩
      · obtain ⟨k2, hk2, h1, h2⟩ := ih p h
        exact ⟨k2, by simp [hk2], h1, h2⟩

/-- On a duplicate-free key list, the binding of a listed key in the update
loop output is the binding produced by that keys own entry. -/
theorem updGo_lookup {base new : JObj} {ts : String} :
    ∀ (ks : List String) (k : String), ks.Nodup → k ∈ ks →
      lookupJ (updGo base new ts ks) k = lookupJ (updEntry base new ts k) k := by
  intro ks
  induction ks with
  | nil =>
      intro k _ hk
      simp at hk
  | cons k0 rest ih =>
      intro k hnd hk
      rcases List.nodup_cons.mp hnd with ⟨hk0, hndr⟩
      rw [show updGo base new ts (k0 :: rest)
            = updEntry base new ts k0 ++ updGo base new ts rest from by
          simp [updGo]]
      by_cases he : k = k0
      · subst he
        cases hl : lookupJ (updEntry base new ts k) k with
        | some v => exact lookupJ_append_some _ hl
        | none =>
            rw [lookupJ_append_none _ hl]
            apply lookupJ_eq_none_of_keys
            intro p hp hcontra
            obtain ⟨k2, hk2, hpk, _⟩ := updGo_keys rest p hp
            rw [hcontra] at hpk
            exact hk0 (hpk ▸ hk2)
      · have hkr : k ∈ rest := by
          rcases List.mem_cons.mp hk with h | h
          · exact absurd h he
          · exact h
        have heps : lookupJ (updEntry base new ts k0) k = none := by
          apply lookupJ_eq_none_of_keys
          intro p hp
          rw [(updEntry_mem hp).1]
          exact fun hc => he hc.symm
        rw [lookupJ_append_none _ heps]
        exact ih k hndr hkr

/-- C1: for every base freshness tree, new plain state and timestamp, at
each key bound in the new plain state to a non-null scalar (non-dict) value,
the freshness merge yields a leaf with the new timestamp when the base has no
leaf at that key or the base leaf holds a different value, and otherwise
returns the unchanged base node with its old timestamp; in particular a
re-sent equal value leaves the timestamp unchanged. -/
theorem C1_freshness_leaf_update (base new : JObj) (ts k : String) (v : J)
    (hv : lookupJ new k = some v) (hdict : jIsDict v = false)
    (hnull : v ≠ J.null) :
    lookupJ (update_freshness_from_full_state base new ts) k =
      match lookupJ base k with
      | some (J.obj bm) =>
          if jEq ((lookupJ bm "value").getD J.null) v then lookupJ base k
          else some (mkLeaf v ts)
      | _ => some (mkLeaf v ts) := by
  have hjn : jEq J.null v = false := by
    cases hx : jEq J.null v
    · rfl
    · exact absurd ((jEq_null_iff v).mp hx) hnull
  unfold update_freshness_from_full_state
  have hk : k ∈ pyDedup (keysOf base ++ keysOf new) :=
    (mem_pyDedup _ _).mpr (List.mem_append.mpr (Or.inr (lookupJ_mem_keys hv)))
  rw [updGo_lookup _ k (pyDedup_nodup _) hk]
  rw [updEntry]
  have hc : ¬(containsKeyJ new k = false) := by
    simp [containsKeyJ, hv]
  rw [if_neg hc]
  split
  · rename_i m heq
    rw [hv] at heq
    injection heq with h2
    rw [h2] at hdict
    simp [jIsDict] at hdict
  · rename_i v2 hne heq
    rw [hv] at heq
    injection heq with h2
    subst h2
    cases hb : lookupJ base k with
    | none => simp [pyTruthyOpt, lookupJ]
    | some x =>
        cases x with
        | obj bm =>
            by_cases hj : jEq ((lookupJ bm "value").getD J.null) v = true
            · have hbm : ¬bm.isEmpty = true := by
                intro hbmnil
                rw [List.isEmpty_iff.mp hbmnil] at hj
                rw [show lookupJ ([] : JObj) "value" = none from rfl] at hj
                simp only [Option.getD_none] at hj
                exact hnull ((jEq_null_iff v).mp hj)
              have hcond : ¬(pyTruthyOpt (some (J.obj bm)) = false ∨
                  jEq ((lookupJ bm "value").getD J.null) v = false) := by
                rintro (hA | hB)
                · simp [pyTruthyOpt, pyTruthy] at hA
                  exact hbm (by simp [hA])
                · rw [hj] at hB
                  cases hB
              rw [if_neg hcond]
              simp [lookupJ, hj]
            · have hjf : jEq ((lookupJ bm "value").getD J.null) v = false := by
                cases hx : jEq ((lookupJ bm "value").getD J.null) v
                · rfl
                · exact absurd hx hj
              rw [if_pos (Or.inr hjf)]
              simp [lookupJ, hjf]
        | null =>
            rw [if_pos (Or.inr hjn)]
            simp [lookupJ]
        | bool b =>
            rw [if_pos (Or.inr hjn)]
            simp [lookupJ]
        | num q =>
            rw [if_pos (Or.inr hjn)]
            simp [lookupJ]
        | str s =>
            rw [if_pos (Or.inr hjn)]
            simp [lookupJ]
        | arr l =>
            rw [if_pos (Or.inr hjn)]
            simp [lookupJ]
  · rename_i heq
    rw [hv] at heq
    cases heq

/-- Witness for C1: re-sending battery equal to the stored value at a later
timestamp leaves the stored leaf, with its old timestamp, unchanged. -/
theorem C1_freshness_leaf_update_witness :
    lookupJ (update_freshness_from_full_state
        [("battery", mkLeaf (J.num 50) "t1")] [("battery", J.num 50)] "t2")
        "battery"
      = some (mkLeaf (J.num 50) "t1") := by
  have h := C1_freshness_leaf_update [("battery", mkLeaf (J.num 50) "t1")]
      [("battery", J.num 50)] "t2" "battery" (J.num 50) rfl rfl (by simp)
  rw [h]
  simp [lookupJ, mkLeaf, jEq]

/-- C3 as amended: a key absent from the new plain state is absent from the
output of the freshness merge; base-only keys are dropped, not preserved. -/
theorem C3_base_only_keys_dropped (base new : JObj) (ts k : String)
    (h : lookupJ new k = none) :
    lookupJ (update_freshness_from_full_state base new ts) k = none := by
  unfold update_freshness_from_full_state
  apply lookupJ_eq_none_of_keys
  intro p hp hpk
  obtain ⟨k2, hk2, hp1, hcont⟩ := updGo_keys _ p hp
  rw [← hp1] at hcont
  rw [hpk] at hcont
  simp [containsKeyJ, h] at hcont

/-- Counterexample to C3 as stated: a base freshness tree holding one leaf at
key a, merged with an empty new plain state, yields an empty tree; the
base-only key does not appear unchanged in the output. -/
theorem C3_counterexample :
    update_freshness_from_full_state [("a", mkLeaf (J.num 1) "t0")] [] "t1" = []
      ∧ lookupJ [("a", mkLeaf (J.num 1) "t0")] "a"
          = some (mkLeaf (J.num 1) "t0") := by
  constructor
  · simp [update_freshness_from_full_state, keysOf, pyDedup, updGo, updEntry,
      containsKeyJ, lookupJ]
  · rfl

/-- Witness for the amended C3: the base-only key a is gone from the merge of
a base holding it with a new plain state not mentioning it. -/
theorem C3_base_only_keys_dropped_witness :
    lookupJ (update_freshness_from_full_state [("a", mkLeaf (J.num 1) "t0")]
        [("x", J.num 2)] "t1") "a" = none :=
  C3_base_only_keys_dropped [("a", mkLeaf (J.num 1) "t0")] [("x", J.num 2)]
    "t1" "a" rfl

/-- C2 as amended: the worker ignores the stored last_known_ts entirely (the
loop output does not depend on it), and every record whose event timestamp is
reconstructible produces exactly one buffered save-record, also when that
timestamp is less than or equal to the stored one; only records with no
reconstructible timestamp are skipped. -/
theorem C2_last_known_ts_ignored (transform : IngestRec → JObj → JObj)
    (d : String) (f : Option JObj) (ts1 ts2 : Option String) (b : Option Int)
    (recs : List IngestRec) :
    deviceLoop transform d (f, ts1) b recs
      = deviceLoop transform d (f, ts2) b recs
    ∧ (deviceLoop transform d (f, ts1) b recs).length
        = countProcessed b recs := by
  constructor
  · rfl
  · show (deviceLoopAux transform d f b recs).length = countProcessed b recs
    induction recs generalizing f b with
    | nil => simp [deviceLoopAux, countProcessed]
    | cons r rest ih =>
        cases hs : stepTs b r with
        | none =>
            simp only [deviceLoopAux, countProcessed, hs]
            exact ih f b
        | some eb =>
            obtain ⟨e, b2⟩ := eb
            simp only [deviceLoopAux, countProcessed, hs, List.length_cons]
            rw [ih]
            omega

/-- Counterexample to C2 as stated: a device whose stored last projection
carries last_updated_ts 100 receives a record with absolute payload
timestamp 50; the claim says the record is skipped with no buffered
save-record, but the loop buffers one save-record for it. -/
theorem C2_counterexample :
    deviceLoop transformConst "D"
        (some [("p", mkLeaf (J.num 50) "90")], some "100") none
        [{ ingestId := some 1, tsField := some 50, toField := none,
           receivedAt := none, sizeBytes := 10 }]
      = [{ ingestId := some 1, deviceId := "D",
           historicalPayload := [("p", J.num 42)],
           latestPayload := [("p", mkLeaf (J.num 42) (renderTs 50))],
           eventTs := renderTs 50, sizeBytes := 10 }]
      ∧ (50 : Int) ≤ 100 := by
  constructor
  · simp [deviceLoop, deviceLoopAux, stepTs, transformConst,
      reconstruct_from_freshness, update_freshness_from_full_state, keysOf,
      pyDedup, updGo, updEntry, containsKeyJ, lookupJ, mkLeaf, jEq,
      pyTruthyOpt, pyTruthy]
  · omega

/-- C6: per-record event-timestamp reconstruction of the ingest worker: an
absolute ts is used and becomes the batch base; otherwise an offset with a
cached base yields base plus offset; otherwise a received_at timestamp is
used and the base is invalidated; otherwise the record is skipped and
contributes no buffered save-record. -/
theorem C6_timestamp_reconstruction :
    (∀ (b : Option Int) (r : IngestRec) (t : Int),
        r.tsField = some t → stepTs b r = some (t, some t))
    ∧ (∀ (b : Int) (r : IngestRec) (o : Int),
        r.tsField = none → r.toField = some o →
        stepTs (some b) r = some (b + o, some b))
    ∧ (∀ (b : Option Int) (r : IngestRec) (ra : Int),
        r.tsField = none → (r.toField = none ∨ b = none) →
        r.receivedAt = some ra → stepTs b r = some (ra, none))
    ∧ (∀ (b : Option Int) (r : IngestRec),
        r.tsField = none → (r.toField = none ∨ b = none) →
        r.receivedAt = none → stepTs b r = none)
    ∧ (∀ (transform : IngestRec → JObj → JObj) (d : String)
        (cf : Option JObj) (b : Option Int) (r : IngestRec)
        (rest : List IngestRec),
        stepTs b r = none →
        deviceLoopAux transform d cf b (r :: rest)
          = deviceLoopAux transform d cf b rest) := by
  refine ⟨?_, ?_, ?_, ?_, ?_⟩
  · intro b r t ht
    simp [stepTs, ht]
  · intro b r o ht hto
    simp [stepTs, ht, hto]
  · intro b r ra ht hor hra
    rcases hor with h | h
    · simp [stepTs, ht, h, hra]
    · subst h
      cases hto : r.toField with
      | none => simp [stepTs, ht, hto, hra]
      | some o => simp [stepTs, ht, hto, hra]
  · intro b r ht hor hra
    rcases hor with h | h
    · simp [stepTs, ht, h, hra]
    · subst h
      cases hto : r.toField with
      | none => simp [stepTs, ht, hto, hra]
      | some o => simp [stepTs, ht, hto, hra]
  · intro transform d cf b r rest hs
    simp [deviceLoopAux, hs]

/-- Witness for C6: a record carrying only a relative offset, with no cached
batch base and no received_at, is skipped and persists nothing. -/
theorem C6_timestamp_reconstruction_witness :
    stepTs none ⟨some 2, none, some 30, none, 5⟩ = none
    ∧ deviceLoopAux transformConst "D2" none none
        [⟨some 2, none, some 30, none, 5⟩]
        = deviceLoopAux transformConst "D2" none none [] := by
  have h4 := C6_timestamp_reconstruction.2.2.2.1 none
      ⟨some 2, none, some 30, none, 5⟩ rfl (Or.inr rfl) rfl
  exact ⟨h4, C6_timestamp_reconstruction.2.2.2.2 transformConst "D2" none none
      _ [] h4⟩

/-- Conditional upsert on a device that has a stored row: the row changes
exactly when the incoming timestamp is strictly greater. -/
theorem upsertLatest_found :
    ∀ (l : List (String × JObj × String)) (r : SaveRow) (p : JObj) (t : String),
      lookupLatest l r.deviceId = some (p, t) →
      lookupLatest (upsertLatest l r) r.deviceId
        = if t < r.eventTs then some (r.latestPayload, r.eventTs)
          else some (p, t) := by
  intro l
  induction l with
  | nil =>
      intro r p t h
      simp [lookupLatest] at h
  | cons x rest ih =>
      intro r p t h
      obtain ⟨d0, p0, t0⟩ := x
      by_cases hd : d0 = r.deviceId
      · rw [show lookupLatest ((d0, p0, t0) :: rest) r.deviceId
              = some (p0, t0) from by rw [lookupLatest]; rw [if_pos hd]] at h
        injection h with h2
        injection h2 with hp ht
        subst hp
        subst ht
        rw [show upsertLatest ((d0, p0, t0) :: rest) r
              = if t0 < r.eventTs then (d0, r.latestPayload, r.eventTs) :: rest
                else (d0, p0, t0) :: rest from by
            rw [upsertLatest]
            rw [if_pos hd]]
        by_cases hlt : t0 < r.eventTs
        · rw [if_pos hlt, if_pos hlt]
          rw [lookupLatest]
          rw [if_pos hd]
        · rw [if_neg hlt, if_neg hlt]
          rw [lookupLatest]
          rw [if_pos hd]
      · rw [show lookupLatest ((d0, p0, t0) :: rest) r.deviceId
              = lookupLatest rest r.deviceId from by
            rw [lookupLatest]; rw [if_neg hd]] at h
        rw [show upsertLatest ((d0, p0, t0) :: rest) r
              = (d0, p0, t0) :: upsertLatest rest r from by
            rw [upsertLatest]; rw [if_neg hd]]
        rw [lookupLatest]
        rw [if_neg hd]
        exact ih r p t h

/-- Conditional upsert on a device with no stored row: the row is
inserted. -/
theorem upsertLatest_missing :
    ∀ (l : List (String × JObj × String)) (r : SaveRow),
      lookupLatest l r.deviceId = none →
      lookupLatest (upsertLatest l r) r.deviceId
        = some (r.latestPayload, r.eventTs) := by
  intro l
  induction l with
  | nil =>
      intro r h
      rw [show upsertLatest [] r
            = [(r.deviceId, r.latestPayload, r.eventTs)] from by rw [upsertLatest]]
      rw [lookupLatest]
      rw [if_pos rfl]
  | cons x rest ih =>
      intro r h
      obtain ⟨d0, p0, t0⟩ := x
      by_cases hd : d0 = r.deviceId
      · rw [show lookupLatest ((d0, p0, t0) :: rest) r.deviceId
              = some (p0, t0) from by rw [lookupLatest]; rw [if_pos hd]] at h
        cases h
      · rw [show lookupLatest ((d0, p0, t0) :: rest) r.deviceId
              = lookupLatest rest r.deviceId from by
            rw [lookupLatest]; rw [if_neg hd]] at h
        rw [show upsertLatest ((d0, p0, t0) :: rest) r
              = (d0, p0, t0) :: upsertLatest rest r from by
            rw [upsertLatest]; rw [if_neg hd]]
        rw [lookupLatest]
        rw [if_neg hd]
        exact ih r h

/-- One conditional upsert never decreases any stored last_updated_ts. -/
theorem upsertLatest_mono :
    ∀ (l : List (String × JObj × String)) (r : SaveRow) (d : String)
      (p : JObj) (t : String),
      lookupLatest l d = some (p, t) →
      ∃ q u, lookupLatest (upsertLatest l r) d = some (q, u) ∧ t ≤ u := by
  intro l
  induction l with
  | nil =>
      intro r d p t h
      simp [lookupLatest] at h
  | cons x rest ih =>
      intro r d p t h
      obtain ⟨d0, p0, t0⟩ := x
      by_cases hd0 : d0 = r.deviceId
      · rw [show upsertLatest ((d0, p0, t0) :: rest) r
              = if t0 < r.eventTs then (d0, r.latestPayload, r.eventTs) :: rest
                else (d0, p0, t0) :: rest from by
            rw [upsertLatest]
            rw [if_pos hd0]]
        by_cases hd : d0 = d
        · rw [show lookupLatest ((d0, p0, t0) :: rest) d
                = some (p0, t0) from by rw [lookupLatest]; rw [if_pos hd]] at h
          injection h with h2
          injection h2 with hp ht
          subst hp
          subst ht
          by_cases hlt : t0 < r.eventTs
          · refine ⟨r.latestPayload, r.eventTs, ?_, le_of_lt hlt⟩
            rw [if_pos hlt]
            rw [lookupLatest]
            rw [if_pos hd]
          · refine ⟨p0, t0, ?_, le_refl t0⟩
            rw [if_neg hlt]
            rw [lookupLatest]
            rw [if_pos hd]
        · rw [show lookupLatest ((d0, p0, t0) :: rest) d
                = lookupLatest rest d from by
              rw [lookupLatest]; rw [if_neg hd]] at h
          by_cases hlt : t0 < r.eventTs
          · refine ⟨p, t, ?_, le_refl t⟩
            rw [if_pos hlt]
            rw [lookupLatest]
            rw [if_neg hd]
            exact h
          · refine ⟨p, t, ?_, le_refl t⟩
            rw [if_neg hlt]
            rw [lookupLatest]
            rw [if_neg hd]
            exact h
      · rw [show upsertLatest ((d0, p0, t0) :: rest) r
              = (d0, p0, t0) :: upsertLatest rest r from by
            rw [upsertLatest]; rw [if_neg hd0]]
        by_cases hd : d0 = d
        · rw [show lookupLatest ((d0, p0, t0) :: rest) d
                = some (p0, t0) from by rw [lookupLatest]; rw [if_pos hd]] at h
          injection h with h2
          injection h2 with hp ht
          subst hp
          subst ht
          refine ⟨p0, t0, ?_, le_refl t0⟩
          rw [lookupLatest]
          rw [if_pos hd]
        · rw [show lookupLatest ((d0, p0, t0) :: rest) d
                = lookupLatest rest d from by
              rw [lookupLatest]; rw [if_neg hd]] at h
          obtain ⟨q, u, hq, hu⟩ := ih r d p t h
          refine ⟨q, u, ?_, hu⟩
          rw [lookupLatest]
          rw [if_neg hd]
          exact hq

/-- Folding the conditional upsert over a batch never decreases any stored
last_updated_ts. -/
theorem foldl_upsertLatest_mono :
    ∀ (rs : List SaveRow) (l : List (String × JObj × String)) (d : String)
      (p : JObj) (t : String),
      lookupLatest l d = some (p, t) →
      ∃ q u, lookupLatest (rs.foldl upsertLatest l) d = some (q, u) ∧ t ≤ u := by
  intro rs
  induction rs with
  | nil =>
      intro l d p t h
      exact ⟨p, t, h, le_refl t⟩
  | cons r rest ih =>
      intro l d p t h
      obtain ⟨q, u, hq, hu⟩ := upsertLatest_mono l r d p t h
      obtain ⟨q2, u2, hq2, hu2⟩ := ih (upsertLatest l r) d q u hq
      exact ⟨q2, u2, hq2, le_trans hu hu2⟩

/-- C4: the latest projection of a device is replaced by a save exactly when
the incoming event timestamp is strictly greater than the stored
last_updated_ts, while the historical event row is still inserted subject to
INSERT OR IGNORE on original_ingest_id; consequently a stored last_updated_ts
never decreases across any sequence of persistence calls, and an out-of-order
record leaves the latest projection unchanged. -/
theorem C4_latest_projection_upsert :
    (∀ (db : Db) (r : SaveRow) (p : JObj) (t : String),
        lookupLatest db.latest r.deviceId = some (p, t) →
        lookupLatest (saveStatefulData db [r]).latest r.deviceId
          = if t < r.eventTs then some (r.latestPayload, r.eventTs)
            else some (p, t))
    ∧ (∀ (db : Db) (r : SaveRow),
        lookupLatest db.latest r.deviceId = none →
        lookupLatest (saveStatefulData db [r]).latest r.deviceId
          = some (r.latestPayload, r.eventTs))
    ∧ (∀ (db : Db) (r : SaveRow) (iid : Int),
        r.ingestId = some iid →
        (db.events.any (fun e => e.ingestId == iid)) = false →
        (saveStatefulData db [r]).events
          = db.events
            ++ [⟨iid, r.deviceId, r.historicalPayload, r.eventTs, r.sizeBytes⟩])
    ∧ (∀ (db : Db) (r : SaveRow) (iid : Int),
        r.ingestId = some iid →
        (db.events.any (fun e => e.ingestId == iid)) = true →
        (saveStatefulData db [r]).events = db.events)
    ∧ (∀ (batches : List (List SaveRow)) (db : Db) (d : String) (p : JObj)
        (t : String),
        lookupLatest db.latest d = some (p, t) →
        ∃ q u, lookupLatest (batches.foldl saveStatefulData db).latest d
          = some (q, u) ∧ t ≤ u) := by
  refine ⟨?_, ?_, ?_, ?_, ?_⟩
  · intro db r p t h
    show lookupLatest (upsertLatest db.latest r) r.deviceId = _
    exact upsertLatest_found db.latest r p t h
  · intro db r h
    show lookupLatest (upsertLatest db.latest r) r.deviceId = _
    exact upsertLatest_missing db.latest r h
  · intro db r iid hid hfresh
    show insertEventOrIgnore db.events r = _
    rw [insertEventOrIgnore]
    rw [hid]
    simp [hfresh]
  · intro db r iid hid hdup
    show insertEventOrIgnore db.events r = _
    rw [insertEventOrIgnore]
    rw [hid]
    simp [hdup]
  · intro batches
    induction batches with
    | nil =>
        intro db d p t h
        exact ⟨p, t, h, le_refl t⟩
    | cons bs rest ih =>
        intro db d p t h
        obtain ⟨q, u, hq, hu⟩ := foldl_upsertLatest_mono bs db.latest d p t h
        obtain ⟨q2, u2, hq2, hu2⟩ := ih (saveStatefulData db bs) d q u hq
        exact ⟨q2, u2, hq2, le_trans hu hu2⟩

/-- Witness for C4: an out-of-order save (incoming timestamp a, stored
timestamp b, with a smaller than b in the text order) leaves the latest
projection unchanged. -/
theorem C4_latest_projection_upsert_witness :
    lookupLatest (saveStatefulData ⟨[], [("D", [("x", J.num 1)], "b")]⟩
        [⟨some 7, "D", [], [("y", J.num 2)], "a", 3⟩]).latest "D"
      = some ([("x", J.num 1)], "b") := by
  have h := C4_latest_projection_upsert.1 ⟨[], [("D", [("x", J.num 1)], "b")]⟩
      ⟨some 7, "D", [], [("y", J.num 2)], "a", 3⟩ [("x", J.num 1)] "b"
      (by simp [lookupLatest])
  rw [h]
  rw [if_neg (by simp [String.lt_iff]; decide)]

/-- Counterexample to C5 as stated: at exactly 60 seconds since the last
weather update (now - last_update equal to 60, hence not greater than 60)
with a movement of 2 km, the gate returns true, while the claim requires
false whenever now - last_update is at most 60 seconds: the cooldown of the
code is strict (less than 60), not inclusive. -/
theorem C5_counterexample :
    shouldForceWeatherUpdate (some ⟨0, 0, some 0⟩) 60 2 = true
      ∧ (60 : Rat) - 0 ≤ 60 := by
  constructor
  · norm_num [shouldForceWeatherUpdate, WEATHER_COOLDOWN_SECONDS,
      WEATHER_EXPIRATION_SECONDS, MOVEMENT_THRESHOLD_KM]
  · norm_num

/-- C5 as amended: the gate returns true when the device has no cached
position or no last_weather_update; otherwise it returns false whenever
now - last_update is strictly below the 60 second cooldown, and for elapsed
times of at least 60 seconds it returns true exactly when the position is
stale (strictly over 3600 seconds) or the device moved strictly more than
1 km. -/
theorem C5_weather_gate_characterization :
    (∀ now dist : Rat, shouldForceWeatherUpdate none now dist = true)
    ∧ (∀ la lo now dist : Rat,
        shouldForceWeatherUpdate (some ⟨la, lo, none⟩) now dist = true)
    ∧ (∀ la lo lu now dist : Rat,
        shouldForceWeatherUpdate (some ⟨la, lo, some lu⟩) now dist
          = (decide (WEATHER_COOLDOWN_SECONDS ≤ now - lu)
              && (decide (WEATHER_EXPIRATION_SECONDS < now - lu)
                  || decide (MOVEMENT_THRESHOLD_KM < dist)))) := by
  refine ⟨?_, ?_, ?_⟩
  · intro now dist
    rfl
  · intro la lo now dist
    rfl
  · intro la lo lu now dist
    show (if now - lu < WEATHER_COOLDOWN_SECONDS then false
      else if now - lu > WEATHER_EXPIRATION_SECONDS then true
      else if dist > MOVEMENT_THRESHOLD_KM then true else false) = _
    by_cases h1 : now - lu < WEATHER_COOLDOWN_SECONDS
    · rw [if_pos h1]
      have h1n : ¬WEATHER_COOLDOWN_SECONDS ≤ now - lu := not_le.mpr h1
      simp [h1n]
    · rw [if_neg h1]
      have h1y : WEATHER_COOLDOWN_SECONDS ≤ now - lu := not_lt.mp h1
      by_cases h2 : now - lu > WEATHER_EXPIRATION_SECONDS
      · rw [if_pos h2]
        simp [h1y, h2]
      · rw [if_neg h2]
        by_cases h3 : dist > MOVEMENT_THRESHOLD_KM
        · rw [if_pos h3]
          simp [h1y, h3]
        · rw [if_neg h3]
          simp [h1y, h2, h3]

/-- The embedded Python equality equates a value with null only when it is
null. -/
theorem jEq_null_right_iff (v : J) : jEq v J.null = true ↔ v = J.null := by
  cases v <;> simp [jEq]

/-- The value found at a key is structurally smaller than the dict. -/
theorem lookupJ_sizeOf_lt :
    ∀ (m : JObj) (k : String) (v : J),
      lookupJ m k = some v → sizeOf v < sizeOf m := by
  intro m
  induction m with
  | nil =>
      intro k v hv
      simp [lookupJ] at hv
  | cons p rest ih =>
      intro k v hv
      rw [show lookupJ (p :: rest) k
            = if p.1 = k then some p.2 else lookupJ rest k from rfl] at hv
      by_cases hp : p.1 = k
      · rw [if_pos hp] at hv
        have hv2 : p.2 = v := by
          cases hv
          rfl
        subst hv2
        cases p with
        | mk a b =>
            have h0 : ((a, b) : String × J).2 = b := rfl
            rw [h0]
            have h1 : sizeOf ((a, b) :: rest)
                = 1 + (1 + sizeOf a + sizeOf b) + sizeOf rest := by
              simp
            omega
      · rw [if_neg hp] at hv
        have h3 := ih k v hv
        have h2 : sizeOf rest < sizeOf (p :: rest) := by
          simp only [List.cons.sizeOf_spec]
          omega
        omega

/-- Diffing any dict against itself contributes nothing at any key. -/
theorem diffGo_self_eq_nil :
    ∀ n (A : JObj), sizeOf A ≤ n → ∀ ks, diffGo A A ks = [] := by
  intro n
  induction n with
  | zero =>
      intro A hA ks
      cases A <;> simp at hA
  | succ n ih =>
      intro A hA ks
      induction ks with
      | nil => simp [diffGo]
      | cons k rest ihks =>
          rw [show diffGo A A (k :: rest)
                = diffEntry A A k ++ diffGo A A rest from by simp [diffGo]]
          rw [ihks]
          rw [List.append_nil]
          rw [diffEntry]
          by_cases hc : containsKeyJ A k = false
          · rw [if_pos hc]
            have hnone : lookupJ A k = none := by
              revert hc
              cases hl : lookupJ A k <;> simp [containsKeyJ, hl]
            rw [hnone]
          · rw [if_neg hc]
            rw [if_neg hc]
            split
            · rename_i ov heq1 heq2
              rw [heq1] at heq2
              injection heq2 with hov
              rw [← hov]
              simp [jEq_refl]
            · rename_i nm om heq1 heq2
              rw [heq1] at heq2
              injection heq2 with hov
              injection hov with hnm
              have hsz : sizeOf nm ≤ n := by
                have h1 := lookupJ_sizeOf_lt A k (J.obj nm) heq1
                have h2 : sizeOf (J.obj nm) = 1 + sizeOf nm := by simp
                omega
              rw [show om = nm from hnm.symm]
              rw [ih nm hsz]
              simp
            · rename_i nv ov hno hnn heq1 heq2
              rw [heq1] at heq2
              injection heq2 with hov
              rw [← hov]
              simp [jEq_refl]
            · rfl

/-- C8 first law at the top level: diff_states of a state against itself is
the empty delta. -/
theorem diff_states_self_aux (A : JObj) : diff_states A A = [] :=
  diffGo_self_eq_nil (sizeOf A) A le_rfl _

/-- diffEntry when the old state is empty: a key contributes its new value
unless that value is null. -/
theorem diffEntry_nil_old (new : JObj) (k : String) :
    diffEntry new [] k
      = match lookupJ new k with
        | some J.null => []
        | some v => [(k, v)]
        | none => [] := by
  rw [diffEntry]
  rw [if_pos (show containsKeyJ ([] : JObj) k = false from rfl)]

/-- diffGo against an empty old state depends on the new state only through
its lookups. -/
theorem diffGo_nil_old_congr :
    ∀ (ks : List String) (A B : JObj),
      (∀ k ∈ ks, lookupJ A k = lookupJ B k) →
      diffGo A [] ks = diffGo B [] ks := by
  intro ks
  induction ks with
  | nil =>
      intro A B h
      simp [diffGo]
  | cons k rest ih =>
      intro A B h
      rw [show diffGo A [] (k :: rest)
            = diffEntry A [] k ++ diffGo A [] rest from by simp [diffGo]]
      rw [show diffGo B [] (k :: rest)
            = diffEntry B [] k ++ diffGo B [] rest from by simp [diffGo]]
      rw [diffEntry_nil_old, diffEntry_nil_old]
      rw [h k (by simp)]
      rw [ih A B (fun k2 hk2 => h k2 (by simp [hk2]))]

/-- diffGo of a duplicate-free dict against the empty old state, iterated
over its own keys, keeps exactly the entries with non-null values. -/
theorem diffGo_nil_old_filter :
    ∀ A : JObj, (keysOf A).Nodup →
      diffGo A [] (keysOf A) = A.filter (fun p => !(jEq p.2 J.null)) := by
  intro A
  induction A with
  | nil =>
      intro h
      simp [keysOf, diffGo]
  | cons p rest ih =>
      intro h
      obtain ⟨k, v⟩ := p
      have hk : keysOf ((k, v) :: rest) = k :: keysOf rest := rfl
      rw [hk]
      rcases List.nodup_cons.mp (hk ▸ h) with ⟨hknotin, hnd⟩
      rw [show diffGo ((k, v) :: rest) [] (k :: keysOf rest)
            = diffEntry ((k, v) :: rest) [] k
              ++ diffGo ((k, v) :: rest) [] (keysOf rest) from by simp [diffGo]]
      rw [diffEntry_nil_old]
      have hlk : lookupJ ((k, v) :: rest) k = some v := by simp [lookupJ]
      rw [hlk]
      rw [diffGo_nil_old_congr (keysOf rest) ((k, v) :: rest) rest
        (fun k2 hk2 => by
          have hne : ¬(k = k2) := fun he => hknotin (he ▸ hk2)
          simp [lookupJ, hne])]
      rw [ih hnd]
      cases v <;> simp [jEq, List.filter]

/-- C8 as amended: diff_states of any state against itself is empty, and
diff_states of a state against the empty prior state equals the state with
its null-valued top-level keys removed (hence equals the full state whenever
no top-level value is null). -/
theorem C8_diff_laws :
    (∀ A : JObj, diff_states A A = [])
    ∧ (∀ A : JObj, (keysOf A).Nodup →
        diff_states A [] = A.filter (fun p => !(jEq p.2 J.null))) := by
  constructor
  · exact diff_states_self_aux
  · intro A h
    show diffGo A [] (pyDedup (keysOf A ++ keysOf ([] : JObj))) = _
    rw [show keysOf ([] : JObj) = [] from rfl]
    rw [List.append_nil]
    rw [pyDedup_eq_self h]
    exact diffGo_nil_old_filter A h

/-- Counterexample to C8 as stated: a state holding one null-valued key
diffs against the empty state to the empty delta, not to itself. -/
theorem C8_counterexample :
    diff_states [("k", J.null)] [] = []
      ∧ ([("k", J.null)] : JObj) ≠ [] := by
  constructor
  · simp [diff_states, keysOf, pyDedup, diffGo, diffEntry, containsKeyJ,
      lookupJ]
  · simp

/-- Witness for the amended C8: a one-key state with a non-null value diffs
against the empty state to its null-filtered self. -/
theorem C8_diff_laws_witness :
    diff_states [("a", J.num 1)] []
      = List.filter (fun p => !(jEq p.2 J.null)) [("a", J.num 1)] :=
  C8_diff_laws.2 [("a", J.num 1)] (by simp [keysOf])

/-- The history page returns one changes dict per fetched payload, up to the
page limit. -/
theorem historyDeltasGo_length :
    ∀ (n : Nat) (ps : List JObj),
      (historyDeltasGo n ps).length = min n ps.length := by
  intro n
  induction n with
  | zero =>
      intro ps
      simp [historyDeltasGo]
  | succ n ih =>
      intro ps
      cases ps with
      | nil => simp [historyDeltasGo]
      | cons cur rest =>
          rw [show historyDeltasGo (n + 1) (cur :: rest)
                = (postProcessChanges (match rest.head? with
                    | some prev => if (prev.isEmpty : Bool) then cur
                                   else diff_states cur prev
                    | none => cur)) :: historyDeltasGo n rest from by
              simp [historyDeltasGo]]
          simp [ih]
          omega

/-- Each returned changes dict is the post-processed diff against the next
older fetched payload when a truthy one exists, and the post-processed full
payload otherwise. -/
theorem historyDeltasGo_get :
    ∀ (n : Nat) (ps : List JObj) (i : Nat), i < n → i < ps.length →
      (historyDeltasGo n ps)[i]?
        = (ps[i]?).map (fun cur => postProcessChanges
            (match ps[i + 1]? with
             | some prev => if (prev.isEmpty : Bool) then cur
                            else diff_states cur prev
             | none => cur)) := by
  intro n
  induction n with
  | zero =>
      intro ps i hi
      omega
  | succ n ih =>
      intro ps i hi hips
      cases ps with
      | nil => simp at hips
      | cons cur rest =>
          rw [show historyDeltasGo (n + 1) (cur :: rest)
                = (postProcessChanges (match rest.head? with
                    | some prev => if (prev.isEmpty : Bool) then cur
                                   else diff_states cur prev
                    | none => cur)) :: historyDeltasGo n rest from by
              simp [historyDeltasGo]]
          cases i with
          | zero =>
              simp
              rw [show rest[0]? = rest.head? from by
                cases rest <;> simp]
          | succ i =>
              simp only [List.getElem?_cons_succ]
              have hlen : i < rest.length := by
                simp at hips
                omega
              exact ih rest i (by omega) hlen

/-- C7 as amended: the history page of limit L over the fetched payload list
(which holds up to L + 1 rows) returns min L (length) changes dicts; the
changes of the i-th returned event are the post-processed recursive diff of
its payload against the (i+1)-th FETCHED payload whenever that payload
exists and is truthy, so the oldest returned event diffs against the extra
fetched row (an event not in the returned page) whenever a next page exists,
and an event carries its post-processed full payload as changes only when it
is the last fetched row (or the next row is the empty falsy dict). -/
theorem C7_history_changes :
    (∀ (ps : List JObj) (L : Nat),
        (historyDeltas ps L).length = min L ps.length)
    ∧ (∀ (ps : List JObj) (L i : Nat), i < L → i < ps.length →
        (historyDeltas ps L)[i]?
          = (ps[i]?).map (fun cur => postProcessChanges
              (match ps[i + 1]? with
               | some prev => if (prev.isEmpty : Bool) then cur
                              else diff_states cur prev
               | none => cur))) := by
  constructor
  · intro ps L
    exact historyDeltasGo_length L ps
  · intro ps L i hiL hips
    exact historyDeltasGo_get L ps i hiL hips

/-- Counterexample to C7 as stated: three fetched payloads with limit 2.
The oldest returned event (index 1) should, per the claim, carry its full
plain state as changes since no older event is in the returned page; instead
the code diffs it against the extra fetched row, yielding only the changed
key. -/
theorem C7_counterexample :
    (historyDeltas [[("p", J.num 1), ("q", J.num 5)],
        [("p", J.num 2), ("q", J.num 5)],
        [("p", J.num 3), ("q", J.num 5)]] 2)[1]?
      = some [("p", J.num 2)]
    ∧ ([("p", J.num 2)] : JObj) ≠ [("p", J.num 2), ("q", J.num 5)] := by
  constructor
  · simp [historyDeltas, historyDeltasGo, postProcessChanges, popSolarUtc,
      removeKey, cleanupEmpty, cleanupObjFields, applyCustomSorting,
      sortFields, applyCustomSortingList, keyOrders, sortStrings,
      insertSorted, diff_states, diffGo, diffEntry, pyDedup, keysOf,
      containsKeyJ, lookupJ, jEq, setKey]
  · simp

/-- Witness for the amended C7: the newest returned event of a two-row fetch
carries the post-processed diff against the second fetched row. -/
theorem C7_history_changes_witness :
    (historyDeltas [[("p", J.num 1)], [("p", J.num 2)]] 5)[0]?
      = (([[("p", J.num 1)], [("p", J.num 2)]] : List JObj)[0]?).map
          (fun cur => postProcessChanges
            (match ([[("p", J.num 1)], [("p", J.num 2)]] : List JObj)[0 + 1]? with
             | some prev => if (prev.isEmpty : Bool) then cur
                            else diff_states cur prev
             | none => cur)) :=
  C7_history_changes.2 [[("p", J.num 1)], [("p", J.num 2)]] 5 0 (by omega)
    (by simp)

/-- Lookup after an in-place key replacement over the entries of a dict. -/
theorem lookupJ_map_set :
    ∀ (d : JObj) (k : String) (v : J),
      lookupJ (d.map (fun p => if p.1 = k then (k, v) else p)) k
        = if containsKeyJ d k then some v else none := by
  intro d k v
  induction d with
  | nil => simp [lookupJ, containsKeyJ]
  | cons p rest ih =>
      by_cases hp : p.1 = k
      · simp only [List.map_cons, if_pos hp]
        rw [show lookupJ ((k, v) :: rest.map (fun p => if p.1 = k then (k, v) else p)) k
              = some v from by rw [lookupJ]; rw [if_pos rfl]]
        have hcc : containsKeyJ (p :: rest) k = true := by
          simp [containsKeyJ, lookupJ, hp]
        rw [hcc]
        simp
      · simp only [List.map_cons, if_neg hp]
        rw [show lookupJ (p :: rest.map (fun p => if p.1 = k then (k, v) else p)) k
              = lookupJ (rest.map (fun p => if p.1 = k then (k, v) else p)) k from by
            rw [lookupJ]; rw [if_neg hp]]
        rw [ih]
        have hcc : containsKeyJ (p :: rest) k = containsKeyJ rest k := by
          simp [containsKeyJ, lookupJ, hp]
        rw [hcc]

/-- In-place key replacement leaves the bindings of other keys unchanged. -/
theorem lookupJ_map_set_other :
    ∀ (d : JObj) (k : String) (v : J) (k2 : String), k2 ≠ k →
      lookupJ (d.map (fun p => if p.1 = k then (k, v) else p)) k2
        = lookupJ d k2 := by
  intro d k v k2 h
  induction d with
  | nil => simp [lookupJ]
  | cons p rest ih =>
      by_cases hp : p.1 = k
      · simp only [List.map_cons, if_pos hp]
        rw [show lookupJ ((k, v) :: rest.map (fun p => if p.1 = k then (k, v) else p)) k2
              = lookupJ (rest.map (fun p => if p.1 = k then (k, v) else p)) k2 from by
            rw [lookupJ]; rw [if_neg (fun hc => h hc.symm)]]
        rw [ih]
        rw [show lookupJ (p :: rest) k2 = lookupJ rest k2 from by
          rw [lookupJ]; rw [if_neg (hp ▸ fun hc => h hc.symm)]]
      · simp only [List.map_cons, if_neg hp]
        by_cases hp2 : p.1 = k2
        · rw [show lookupJ (p :: rest.map (fun p => if p.1 = k then (k, v) else p)) k2
                = some p.2 from by rw [lookupJ]; rw [if_pos hp2]]
          rw [show lookupJ (p :: rest) k2 = some p.2 from by
            rw [lookupJ]; rw [if_pos hp2]]
        · rw [show lookupJ (p :: rest.map (fun p => if p.1 = k then (k, v) else p)) k2
                = lookupJ (rest.map (fun p => if p.1 = k then (k, v) else p)) k2 from by
            rw [lookupJ]; rw [if_neg hp2]]
          rw [ih]
          rw [show lookupJ (p :: rest) k2 = lookupJ rest k2 from by
            rw [lookupJ]; rw [if_neg hp2]]

/-- Python dict assignment binds the assigned key to the assigned value. -/
theorem lookupJ_setKey_self (d : JObj) (k : String) (v : J) :
    lookupJ (setKey d k v) k = some v := by
  rw [setKey]
  by_cases hc : containsKeyJ d k
  · rw [if_pos hc]
    rw [lookupJ_map_set]
    rw [if_pos hc]
  · rw [if_neg hc]
    have hn : lookupJ d k = none := by
      revert hc
      cases hl : lookupJ d k <;> simp [containsKeyJ, hl]
    rw [lookupJ_append_none _ hn]
    rw [lookupJ]
    rw [if_pos rfl]

/-- Python dict assignment leaves the bindings of other keys unchanged. -/
theorem lookupJ_setKey_other (d : JObj) (k : String) (v : J) (k2 : String)
    (h : k2 ≠ k) : lookupJ (setKey d k v) k2 = lookupJ d k2 := by
  rw [setKey]
  by_cases hc : containsKeyJ d k
  · rw [if_pos hc]
    exact lookupJ_map_set_other d k v k2 h
  · rw [if_neg hc]
    cases hl : lookupJ d k2 with
    | some w => exact lookupJ_append_some _ hl
    | none =>
        rw [lookupJ_append_none _ hl]
        rw [lookupJ]
        rw [if_neg (fun hx => h hx.symm)]
        rfl

/-- C10: get_weather_enrichment either leaves the record and the device
position cache both unchanged, or (exactly when the coordinates parse, the
gate fires and weather data is obtained) attaches the weather fields with
weather_fetch_lat and weather_fetch_lon (and weather_fetch_ts when a truthy
cache timestamp exists) and overwrites the position cache entry with the
current coordinates and now; in particular whenever no weather data is
obtained the record and the position cache are untouched, so a failed fetch
does not start the cooldown. -/
theorem C10_weather_enrichment_frame :
    (∀ (env : WeatherEnv) (data : JObj), env.fetchedWeather = none →
        getWeatherEnrichment env data = (data, env.pos))
    ∧ (∀ (env : WeatherEnv) (data : JObj),
        getWeatherEnrichment env data = (data, env.pos)
        ∨ ∃ w la lo, env.fetchedWeather = some w
            ∧ (getWeatherEnrichment env data).2
                = some ⟨la, lo, some env.now⟩
            ∧ lookupJ (getWeatherEnrichment env data).1 "weather_fetch_lat"
                = some (J.num la)
            ∧ lookupJ (getWeatherEnrichment env data).1 "weather_fetch_lon"
                = some (J.num lo)
            ∧ ∀ ts, env.fetchedTs = some ts → ts ≠ "" →
                lookupJ (getWeatherEnrichment env data).1 "weather_fetch_ts"
                  = some (J.str ts)) := by
  constructor
  · intro env data h
    rw [getWeatherEnrichment]
    split
    · rfl
    · split
      · split
        · rw [h]
        · rfl
      · rfl
  · intro env data
    rw [getWeatherEnrichment]
    split
    · exact Or.inl rfl
    · split
      · rename_i lat lon heq1 heq2
        split
        · split
          · rename_i w hw
            refine Or.inr ⟨w, lat, lon, hw, rfl, ?_, ?_, ?_⟩
            · show lookupJ (match env.fetchedTs with
                | some ts => if ts = "" then
                      setKey (setKey (dictUpdate data w) "weather_fetch_lat"
                        (J.num lat)) "weather_fetch_lon" (J.num lon)
                    else setKey (setKey (setKey (dictUpdate data w)
                      "weather_fetch_lat" (J.num lat)) "weather_fetch_lon"
                      (J.num lon)) "weather_fetch_ts" (J.str ts)
                | none => setKey (setKey (dictUpdate data w)
                    "weather_fetch_lat" (J.num lat)) "weather_fetch_lon"
                    (J.num lon)) "weather_fetch_lat" = some (J.num lat)
              cases hts : env.fetchedTs with
              | none =>
                  rw [lookupJ_setKey_other _ _ _ _ (by decide)]
                  exact lookupJ_setKey_self _ _ _
              | some ts =>
                  dsimp only
                  by_cases hts0 : ts = ""
                  · rw [if_pos hts0]
                    rw [lookupJ_setKey_other _ _ _ _ (by decide)]
                    exact lookupJ_setKey_self _ _ _
                  · rw [if_neg hts0]
                    rw [lookupJ_setKey_other _ _ _ _ (by decide)]
                    rw [lookupJ_setKey_other _ _ _ _ (by decide)]
                    exact lookupJ_setKey_self _ _ _
            · show lookupJ (match env.fetchedTs with
                | some ts => if ts = "" then
                      setKey (setKey (dictUpdate data w) "weather_fetch_lat"
                        (J.num lat)) "weather_fetch_lon" (J.num lon)
                    else setKey (setKey (setKey (dictUpdate data w)
                      "weather_fetch_lat" (J.num lat)) "weather_fetch_lon"
                      (J.num lon)) "weather_fetch_ts" (J.str ts)
                | none => setKey (setKey (dictUpdate data w)
                    "weather_fetch_lat" (J.num lat)) "weather_fetch_lon"
                    (J.num lon)) "weather_fetch_lon" = some (J.num lon)
              cases hts : env.fetchedTs with
              | none => exact lookupJ_setKey_self _ _ _
              | some ts =>
                  dsimp only
                  by_cases hts0 : ts = ""
                  · rw [if_pos hts0]
                    exact lookupJ_setKey_self _ _ _
                  · rw [if_neg hts0]
                    rw [lookupJ_setKey_other _ _ _ _ (by decide)]
                    exact lookupJ_setKey_self _ _ _
            · intro ts hts hne
              show lookupJ (match env.fetchedTs with
                | some ts => if ts = "" then
                      setKey (setKey (dictUpdate data w) "weather_fetch_lat"
                        (J.num lat)) "weather_fetch_lon" (J.num lon)
                    else setKey (setKey (setKey (dictUpdate data w)
                      "weather_fetch_lat" (J.num lat)) "weather_fetch_lon"
                      (J.num lon)) "weather_fetch_ts" (J.str ts)
                | none => setKey (setKey (dictUpdate data w)
                    "weather_fetch_lat" (J.num lat)) "weather_fetch_lon"
                    (J.num lon)) "weather_fetch_ts" = some (J.str ts)
              rw [hts]
              dsimp only
              rw [if_neg hne]
              exact lookupJ_setKey_self _ _ _
          · exact Or.inl rfl
        · exact Or.inl rfl
      · exact Or.inl rfl

/-- Witness for C10: with coordinates present but no weather obtained (cache
miss and quota exhausted or both providers failing), the record and the
position cache are unchanged. -/
theorem C10_weather_enrichment_frame_witness :
    getWeatherEnrichment ⟨none, 0, 0, none, none⟩ [("y", J.num 48), ("x", J.num 11)]
      = ([("y", J.num 48), ("x", J.num 11)], none) :=
  C10_weather_enrichment_frame.1 ⟨none, 0, 0, none, none⟩
    [("y", J.num 48), ("x", J.num 11)] rfl

/-- Inside the gated region (temperature at most 10, wind at least 1.34 m/s)
the wind-chill formula value never exceeds the temperature, so the final
guard of calculate_wind_chill never fires there. -/
theorem windChill_le_temp (t w : Real) (ht : t ≤ 10) (hw : 1.34 ≤ w) :
    13.12 + 0.6215 * t - 11.37 * (w * 3.6) ^ (0.16 : Real)
      + 0.3965 * t * (w * 3.6) ^ (0.16 : Real) ≤ t := by
  have hkmh : (4.824 : Real) ≤ w * 3.6 := by nlinarith
  have hKlb : (1.28 : Real) ≤ (w * 3.6) ^ (0.16 : Real) := by
    have h1 : ((4.824 : Real)) ^ (0.16 : Real) ≤ (w * 3.6) ^ (0.16 : Real) :=
      Real.rpow_le_rpow (by norm_num) hkmh (by norm_num)
    have h2 : (1.28 : Real) ≤ (4.824 : Real) ^ (0.16 : Real) := by
      have hpos : (0 : Real) ≤ (4.824 : Real) ^ (0.16 : Real) :=
        Real.rpow_nonneg (by norm_num) _
      have h3 : ((4.824 : Real) ^ (0.16 : Real)) ^ (25 : Nat)
          = (4.824 : Real) ^ (4 : Nat) := by
        rw [← Real.rpow_natCast ((4.824 : Real) ^ (0.16 : Real)) 25]
        rw [← Real.rpow_mul (by norm_num)]
        rw [show (0.16 * ((25 : Nat) : Real)) = ((4 : Nat) : Real) by
          push_cast
          norm_num]
        rw [Real.rpow_natCast]
      have h4 : (1.28 : Real) ^ (25 : Nat)
          ≤ ((4.824 : Real) ^ (0.16 : Real)) ^ (25 : Nat) := by
        rw [h3]
        norm_num
      exact le_of_pow_le_pow_left (by norm_num) hpos h4
    exact le_trans h2 h1
  have hcoef : (0 : Real) ≤ 11.37 - 0.3965 * t := by nlinarith
  nlinarith [mul_nonneg hcoef
    (by linarith : (0 : Real) ≤ (w * 3.6) ^ (0.16 : Real) - 1.28)]

/-- C9: calculate_wind_chill returns a non-null rounded value exactly when
both inputs are present, the temperature is at most 10 degrees and the wind
speed is at least 1.34 m/s; with the temperature above 10 or the wind below
1.34 it returns null even when both inputs are present, and a missing input
always yields null. -/
theorem C9_wind_chill_gate :
    (∀ t w : Real,
        (calculate_wind_chill (some t) (some w)).isSome
          ↔ (t ≤ 10 ∧ 1.34 ≤ w))
    ∧ (∀ o : Option Real, calculate_wind_chill none o = none
        ∧ calculate_wind_chill o none = none) := by
  constructor
  · intro t w
    rw [calculate_wind_chill]
    by_cases hgate : t > 10 ∨ w < 1.34
    · rw [if_pos hgate]
      simp only [Option.isSome_none, Bool.false_eq_true, false_iff]
      rintro ⟨h1, h2⟩
      rcases hgate with h | h
      · linarith
      · linarith
    · rw [if_neg hgate]
      push_neg at hgate
      obtain ⟨h1, h2⟩ := hgate
      have hwc := windChill_le_temp t w h1 h2
      dsimp only
      rw [if_neg (not_lt.mpr hwc)]
      simp [h1, h2]
  · intro o
    constructor
    · cases o <;> rfl
    · cases o <;> rfl

/-- Witness for the amended C2: the loop outcome is identical for two
different stored last_updated_ts values. -/
theorem C2_last_known_ts_ignored_witness :
    deviceLoop transformConst "D" (some [], some "a") none []
        = deviceLoop transformConst "D" (some [], some "b") none []
      ∧ (deviceLoop transformConst "D" (some [], some "a") none []).length
          = countProcessed none [] :=
  C2_last_known_ts_ignored transformConst "D" (some []) (some "a") (some "b")
    none []

/-- Witness for the amended C5: two hours after the last update with no
movement, the gate evaluates by the stale-or-moved rule. -/
theorem C5_weather_gate_characterization_witness :
    shouldForceWeatherUpdate (some ⟨1, 2, some 0⟩) 7200 0
      = (decide (WEATHER_COOLDOWN_SECONDS ≤ 7200 - 0)
          && (decide (WEATHER_EXPIRATION_SECONDS < 7200 - 0)
              || decide (MOVEMENT_THRESHOLD_KM < 0))) :=
  C5_weather_gate_characterization.2.2 1 2 0 7200 0

/-- Witness for C9: a missing temperature yields a null wind chill. -/
theorem C9_wind_chill_gate_witness :
    calculate_wind_chill none none = none :=
  (C9_wind_chill_gate.2 none).1
